import Mathlib

/-!
Shallow embedding of the API-browser extension core (service_worker.js and
popup.js): URL normalization, API classification, the request correlator,
and the per-tab aggregation store with insertion-order eviction.

External collaborators (the host regex engine, the WHATWG URL parser and the
async key-value stores) are modelled at their interface boundary: regex
compilation and URL parsing are abstract functions passed as parameters, and
the per-tab storage is a total map from tab ids to optional tab tables.
-/

namespace ApiBrowser

/-- A compiled regular expression, abstracted to its matching function
(the host engine's `RegExp.prototype.test`). -/
structure JsRegex where
  test : String → Bool

/-- The parsed components of a URL as exposed by the host `URL` class:
`origin`, `pathname` and `search`. -/
structure URLParts where
  origin : String
  pathname : String
  search : String
deriving DecidableEq

/-- Process-wide configuration (`DEFAULT_SETTINGS` merged with stored
overrides), fields in source order. -/
structure Settings where
  captureTypes : List String
  includeQueryString : Bool
  apiIncludePatterns : List String
  apiExcludePatterns : List String
  maxPerTab : Nat

/-- `safeRegexList`: compiles each pattern, silently dropping the ones the
engine rejects.  `compile` abstracts `new RegExp(p, "i")`, returning `none`
exactly when the constructor throws. -/
def safeRegexList (compile : String → Option JsRegex) (patterns : List String) :
    List JsRegex :=
  patterns.filterMap compile

/-- `normalizeUrl`: parse the URL and keep origin + path (+ query when the
flag is set); on parse failure return the raw string unchanged. -/
def normalizeUrl (parse : String → Option URLParts) (rawUrl : String)
    (includeQueryString : Bool) : String :=
  match parse rawUrl with
  | some u =>
      if includeQueryString then u.origin ++ u.pathname ++ u.search
      else u.origin ++ u.pathname
  | none => rawUrl

/-- `isApiUrl`: included iff the include set is empty or some include pattern
matches; excluded iff some exclude pattern matches; final decision is
`included && !excluded`. -/
def isApiUrl (compile : String → Option JsRegex) (url : String)
    (settings : Settings) : Bool :=
  let inc := safeRegexList compile settings.apiIncludePatterns
  let exc := safeRegexList compile settings.apiExcludePatterns
  let target := url
  let included := if inc.length ≠ 0 then inc.any (fun r => r.test target) else true
  let excluded := if exc.length ≠ 0 then exc.any (fun r => r.test target) else false
  included && !excluded

/-- One response header (`name`/`value` pair, either field may be absent). -/
structure Header where
  name : Option String
  value : Option String

/-- `toLowerCase()`, modelled character by character. -/
def lowerEq (a b : String) : Bool :=
  a.data.map Char.toLower == b.data.map Char.toLower

/-- `getHeaderValue`: first header whose name matches case-insensitively;
`h?.value ?? null` yields `none` when the header or its value is absent. -/
def getHeaderValue (headers : Option (List Header)) (name : String) :
    Option String :=
  match headers with
  | none => none
  | some hs =>
      match hs.find? (fun x => lowerEq (x.name.getD "") name) with
      | none => none
      | some h => h.value

/-- JavaScript `parseInt(s, 10)`: skip leading whitespace, read an optional
sign and then the longest digit prefix; `NaN` (here `none`) when no digit
follows. -/
def parseIntJS (s : String) : Option Int :=
  let cs := s.data.dropWhile (fun c => c.isWhitespace)
  let signed : Int × List Char :=
    match cs with
    | '-' :: rest => (-1, rest)
    | '+' :: rest => (1, rest)
    | _ => (1, cs)
  let ds := signed.2.takeWhile Char.isDigit
  if ds.isEmpty then none
  else some (signed.1 * (ds.foldl (fun a c => a * 10 + (c.toNat - 48)) 0 : Nat))

/-- `toIntOrNull`: `null` stays `null`; otherwise `parseInt` base 10, with
non-finite results mapped back to `null`. -/
def toIntOrNull (v : Option String) : Option Int :=
  match v with
  | none => none
  | some s => parseIntJS s

/-- `makeKey`: the aggregation key is the method and the endpoint joined by
a space. -/
def makeKey (method endpoint : String) : String :=
  method ++ " " ++ endpoint

/-- A status value: an HTTP status code or the `"ERR"` sentinel used by the
error listener. -/
inductive Status where
  | code (n : Int)
  | err
deriving DecidableEq

/-- `String(statusCode)`: the key used in `statusCounts`. -/
def statusKey : Status → String
  | .code n => toString n
  | .err => "ERR"

/-- One aggregated record per (method, endpoint) pair in a tab's table. -/
structure EndpointRecord where
  key : String
  method : String
  endpoint : String
  count : Nat
  firstSeen : Nat
  lastSeen : Nat
  lastStatus : Option Status
  statusCounts : List (String × Nat)
  sizeKnownCount : Nat
  sizeSum : Int
  lastSize : Option Int
deriving DecidableEq

/-- The record `upsertApiCall` creates when the key is absent. -/
def freshRecord (key method endpoint : String) (now : Nat) : EndpointRecord :=
  { key := key
    method := method
    endpoint := endpoint
    count := 0
    firstSeen := now
    lastSeen := now
    lastStatus := none
    statusCounts := []
    sizeKnownCount := 0
    sizeSum := 0
    lastSize := none }

/-- Property read of a JavaScript object, modelled as an association list. -/
def objGet {α : Type} : List (String × α) → String → Option α
  | [], _ => none
  | (k', v) :: rest, k => if k' = k then some v else objGet rest k

/-- Property write of a JavaScript object: replace in place when the key is
present, append otherwise. -/
def objSet {α : Type} : List (String × α) → String → α → List (String × α)
  | [], k, v => [(k, v)]
  | (k', v') :: rest, k, v =>
      if k' = k then (k, v) :: rest else (k', v') :: objSet rest k v

/-- `for (const rk of ks) delete obj[rk]`: drop every entry whose key is in
`ks`. -/
def objDeleteList {α : Type} : List (String × α) → List String → List (String × α)
  | [], _ => []
  | e :: rest, ks =>
      if e.1 ∈ ks then objDeleteList rest ks else e :: objDeleteList rest ks

/-- A tab's table: the `items` object and the most-recent-first `order`
key list. -/
structure TabData where
  items : List (String × EndpointRecord)
  order : List String
deriving DecidableEq

/-- The default table `getTabData` returns when nothing is stored. -/
def emptyTabData : TabData :=
  { items := [], order := [] }

/-- The in-place mutation of one record performed by `upsertApiCall`:
increment `count`, refresh `lastSeen`, then fold in the status and the size
when they are non-null. -/
def updateRecord (now : Nat) (statusCode : Option Status) (sizeBytes : Option Int)
    (it : EndpointRecord) : EndpointRecord :=
  let it1 := { it with count := it.count + 1, lastSeen := now }
  let it2 :=
    match statusCode with
    | none => it1
    | some sc =>
        { it1 with
          lastStatus := some sc
          statusCounts :=
            objSet it1.statusCounts (statusKey sc)
              ((objGet it1.statusCounts (statusKey sc)).getD 0 + 1) }
  match sizeBytes with
  | none => it2
  | some sz =>
      { it2 with
        lastSize := some sz
        sizeKnownCount := it2.sizeKnownCount + 1
        sizeSum := it2.sizeSum + sz }

/-- The capacity check at the end of `upsertApiCall`: when `order` exceeds
`maxPerTab`, splice off the tail of `order` and delete those records. -/
def enforceLimit (maxPerTab : Nat) (d : TabData) : TabData :=
  if maxPerTab < d.order.length then
    { items := objDeleteList d.items (d.order.drop maxPerTab)
      order := d.order.take maxPerTab }
  else d

/-- The per-table body of `upsertApiCall`: create-if-absent (prepending the
key to `order`), mutate the record in place, then enforce the capacity. -/
def upsertTab (maxPerTab now : Nat) (method endpoint : String)
    (statusCode : Option Status) (sizeBytes : Option Int) (d : TabData) :
    TabData :=
  let key := makeKey method endpoint
  match objGet d.items key with
  | some it =>
      enforceLimit maxPerTab
        { items := objSet d.items key (updateRecord now statusCode sizeBytes it)
          order := d.order }
  | none =>
      enforceLimit maxPerTab
        { items :=
            objSet (objSet d.items key (freshRecord key method endpoint now)) key
              (updateRecord now statusCode sizeBytes (freshRecord key method endpoint now))
          order := key :: d.order }

/-- The session store: `"tab:<tabId>"` keys, `none` when nothing was ever
written for that tab. -/
def Store : Type := Int → Option TabData

/-- A store with no tab tables. -/
def emptyStore : Store := fun _ => none

/-- `getTabData`: the stored table or the empty default. -/
def getTabData (s : Store) (tabId : Int) : TabData :=
  (s tabId).getD emptyTabData

/-- `setTabData`: overwrite one tab's table. -/
def setTabData (s : Store) (tabId : Int) (d : TabData) : Store :=
  fun t => if t = tabId then some d else s t

/-- `chrome.storage.session.remove` on the tab's key (the `tabs.onRemoved`
listener). -/
def removeTabData (s : Store) (tabId : Int) : Store :=
  fun t => if t = tabId then none else s t

/-- popup.js `clearTab`: replace the tab's table with an empty one. -/
def clearTab (s : Store) (tabId : Int) : Store :=
  setTabData s tabId emptyTabData

/-- `upsertApiCall`: reject negative tab ids, otherwise read-modify-write the
tab's table. -/
def upsertApiCall (settings : Settings) (now : Nat) (tabId : Int)
    (method endpoint : String) (statusCode : Option Status)
    (sizeBytes : Option Int) (s : Store) : Store :=
  if tabId < 0 then s
  else
    setTabData s tabId
      (upsertTab settings.maxPerTab now method endpoint statusCode sizeBytes
        (getTabData s tabId))

/-- `upsertApiCall` with a fallible persistence step: `none` models the
`chrome.storage.session.set` promise rejecting (the early return for a
negative tab id happens before any storage access, so it cannot fail). -/
def upsertApiCallE (settings : Settings) (now : Nat) (tabId : Int)
    (method endpoint : String) (statusCode : Option Status)
    (sizeBytes : Option Int) (persistOk : Bool) (s : Store) : Option Store :=
  if tabId < 0 then some s
  else if persistOk then
    some (setTabData s tabId
      (upsertTab settings.maxPerTab now method endpoint statusCode sizeBytes
        (getTabData s tabId)))
  else none

/-- A correlator entry (`requestCache` value). -/
structure PendingRequest where
  tabId : Int
  method : String
  endpoint : String
  sizeBytes : Option Int
deriving DecidableEq

/-- `requestCache.set`. -/
def cacheSet (c : String → Option PendingRequest) (k : String)
    (v : PendingRequest) : String → Option PendingRequest :=
  fun x => if x = k then some v else c x

/-- `requestCache.delete`. -/
def cacheDelete (c : String → Option PendingRequest) (k : String) :
    String → Option PendingRequest :=
  fun x => if x = k then none else c x

/-- The whole mutable state the listeners touch: the in-memory correlator and
the session store. -/
structure SysState where
  cache : String → Option PendingRequest
  store : Store

/-- The fields of a start event the `onBeforeRequest` listener reads. -/
structure StartDetails where
  requestId : String
  tabId : Int
  method : Option String
  url : String
  type : String

/-- JavaScript `m || dflt` on an optional string: absent and empty both fall
back to the default. -/
def jsOrDefault (m : Option String) (dflt : String) : String :=
  match m with
  | none => dflt
  | some s => if s = "" then dflt else s

/-- The `onBeforeRequest` listener: skip uncaptured types and non-API
endpoints, otherwise insert a fresh correlator entry. -/
def onBeforeRequestStep (compile : String → Option JsRegex)
    (parse : String → Option URLParts) (settings : Settings)
    (details : StartDetails) (cache : String → Option PendingRequest) :
    String → Option PendingRequest :=
  if settings.captureTypes.contains details.type then
    let endpoint := normalizeUrl parse details.url settings.includeQueryString
    if isApiUrl compile endpoint settings then
      cacheSet cache details.requestId
        { tabId := details.tabId
          method := jsOrDefault details.method "GET"
          endpoint := endpoint
          sizeBytes := none }
    else cache
  else cache

/-- The `onHeadersReceived` listener: look up the entry, parse the
content-length header, update `sizeBytes` only on a successful parse, and
write the entry back. -/
def onHeadersReceivedStep (requestId : String)
    (responseHeaders : Option (List Header))
    (cache : String → Option PendingRequest) : String → Option PendingRequest :=
  match cache requestId with
  | none => cache
  | some meta =>
      let cl := getHeaderValue responseHeaders "content-length"
      let meta' :=
        match toIntOrNull cl with
        | some sz => { meta with sizeBytes := some sz }
        | none => meta
      cacheSet cache requestId meta'

/-- The `onCompleted` listener: upsert, then delete the correlator entry.
The deletion sits after the awaited upsert with no try/finally, so a failed
upsert (second component `false`) leaves both the store and the cache
untouched. -/
def onCompletedStep (settings : Settings) (now : Nat) (persistOk : Bool)
    (requestId : String) (statusCode : Option Int) (st : SysState) :
    SysState × Bool :=
  match st.cache requestId with
  | none => (st, true)
  | some meta =>
      match upsertApiCallE settings now meta.tabId meta.method meta.endpoint
          (statusCode.map Status.code) meta.sizeBytes persistOk st.store with
      | some store' =>
          ({ cache := cacheDelete st.cache requestId, store := store' }, true)
      | none => (st, false)

/-- The `onErrorOccurred` listener: same shape as `onCompleted` with the
`"ERR"` sentinel status. -/
def onErrorOccurredStep (settings : Settings) (now : Nat) (persistOk : Bool)
    (requestId : String) (st : SysState) : SysState × Bool :=
  match st.cache requestId with
  | none => (st, true)
  | some meta =>
      match upsertApiCallE settings now meta.tabId meta.method meta.endpoint
          (some Status.err) meta.sizeBytes persistOk st.store with
      | some store' =>
          ({ cache := cacheDelete st.cache requestId, store := store' }, true)
      | none => (st, false)

/-- One terminal event as seen by `upsertApiCall`: timestamp, status, size. -/
structure TerminalEv where
  now : Nat
  status : Option Status
  size : Option Int
deriving DecidableEq

/-- A sequence of terminal events for one (tab, method, endpoint) triple,
delivered to `upsertApiCall` in order. -/
def runUpserts (settings : Settings) (tabId : Int) (method endpoint : String)
    (evs : List TerminalEv) (s : Store) : Store :=
  evs.foldl
    (fun s ev => upsertApiCall settings ev.now tabId method endpoint ev.status ev.size s)
    s

/-- The same sequence at the level of one tab's table. -/
def runTabUpserts (maxPerTab : Nat) (method endpoint : String)
    (evs : List TerminalEv) (d : TabData) : TabData :=
  evs.foldl (fun d ev => upsertTab maxPerTab ev.now method endpoint ev.status ev.size d) d

/-- A run of bare insert/update events (status and size absent), given by the
(method, endpoint) pairs in order. -/
def insertRun (maxPerTab now : Nat) (ps : List (String × String)) (d : TabData) :
    TabData :=
  ps.foldl (fun d p => upsertTab maxPerTab now p.1 p.2 none none d) d

/-- The key of a (method, endpoint) pair. -/
def mkKeyP (p : String × String) : String :=
  makeKey p.1 p.2

/-- Sum of the values of a `statusCounts` object. -/
def sumVals (scs : List (String × Nat)) : Nat :=
  (scs.map Prod.snd).sum

/-- Number of events in a sequence that carry a (non-null) status. -/
def countSome (evs : List TerminalEv) : Nat :=
  (evs.filter (fun ev => ev.status.isSome)).length

/-- The structural invariant of a tab table: `order` and the object's keys
are duplicate-free and enumerate the same set. -/
def TabInv (d : TabData) : Prop :=
  d.order.Nodup ∧ (d.items.map Prod.fst).Nodup ∧
    ∀ k, k ∈ d.items.map Prod.fst ↔ k ∈ d.order

/-- Every stored tab table satisfies the structural invariant. -/
def StoreInv (s : Store) : Prop :=
  ∀ t d, s t = some d → TabInv d

/-! ### Object (association list) lemmas -/

theorem objGet_objSet_self {α : Type} (its : List (String × α)) (k : String) (v : α) :
    objGet (objSet its k v) k = some v := by
  induction its with
  | nil => simp [objGet, objSet]
  | cons e rest ih =>
      obtain ⟨k', v'⟩ := e
      by_cases h : k' = k
      · simp [objGet, objSet, h]
      · simp [objGet, objSet, h, ih]

theorem objGet_objSet_ne {α : Type} (its : List (String × α)) (k k' : String) (v : α)
    (h : k' ≠ k) : objGet (objSet its k v) k' = objGet its k' := by
  induction its with
  | nil => simp [objGet, objSet, Ne.symm h]
  | cons e rest ih =>
      obtain ⟨k₀, v₀⟩ := e
      by_cases h₀ : k₀ = k
      · subst h₀
        simp [objGet, objSet, Ne.symm h]
      · simp [objGet, objSet, h₀, ih]

theorem objSet_objSet {α : Type} (its : List (String × α)) (k : String) (a b : α) :
    objSet (objSet its k a) k b = objSet its k b := by
  induction its with
  | nil => simp [objSet]
  | cons e rest ih =>
      obtain ⟨k₀, v₀⟩ := e
      by_cases h : k₀ = k
      · simp [objSet, h]
      · simp [objSet, h, ih]

theorem mapFst_objSet_mem {α : Type} (its : List (String × α)) (k : String) (v : α)
    (h : k ∈ its.map Prod.fst) : (objSet its k v).map Prod.fst = its.map Prod.fst := by
  induction its with
  | nil => simp at h
  | cons e rest ih =>
      obtain ⟨k₀, v₀⟩ := e
      by_cases h₀ : k₀ = k
      · simp [objSet, h₀]
      · simp only [List.map_cons] at h
        have hk : k ∈ rest.map Prod.fst := by
          rcases List.mem_cons.mp h with h | h
          · exact absurd h.symm h₀
          · exact h
        simp [objSet, h₀, ih hk]

theorem mapFst_objSet_not_mem {α : Type} (its : List (String × α)) (k : String) (v : α)
    (h : k ∉ its.map Prod.fst) :
    (objSet its k v).map Prod.fst = its.map Prod.fst ++ [k] := by
  induction its with
  | nil => simp [objSet]
  | cons e rest ih =>
      obtain ⟨k₀, v₀⟩ := e
      simp only [List.map_cons, List.mem_cons] at h
      push_neg at h
      simp [objSet, Ne.symm h.1, ih h.2]

theorem objGet_none_iff_not_mem {α : Type} (its : List (String × α)) (k : String) :
    objGet its k = none ↔ k ∉ its.map Prod.fst := by
  induction its with
  | nil => simp [objGet]
  | cons e rest ih =>
      obtain ⟨k₀, v₀⟩ := e
      by_cases h : k₀ = k
      · simp [objGet, h]
      · simp [objGet, h, ih, Ne.symm h]

theorem objGet_isSome_iff_mem {α : Type} (its : List (String × α)) (k : String) :
    (objGet its k).isSome ↔ k ∈ its.map Prod.fst := by
  rw [Option.isSome_iff_ne_none]
  constructor
  · intro h
    by_contra hmem
    exact h ((objGet_none_iff_not_mem its k).mpr hmem)
  · intro hmem h
    exact (objGet_none_iff_not_mem its k).mp h hmem

theorem objGet_objDeleteList {α : Type} (its : List (String × α)) (ks : List String)
    (k : String) :
    objGet (objDeleteList its ks) k = if k ∈ ks then none else objGet its k := by
  induction its with
  | nil => simp [objGet, objDeleteList]
  | cons e rest ih =>
      obtain ⟨k₀, v₀⟩ := e
      by_cases hk₀ : k₀ ∈ ks
      · by_cases h : k₀ = k
        · subst h
          simp [objDeleteList, hk₀, ih]
        · simp [objDeleteList, objGet, hk₀, h, ih]
      · by_cases h : k₀ = k
        · subst h
          simp [objDeleteList, objGet, hk₀]
        · simp [objDeleteList, objGet, hk₀, h, ih]

theorem objDeleteList_sublist {α : Type} (its : List (String × α)) (ks : List String) :
    List.Sublist (objDeleteList its ks) its := by
  induction its with
  | nil => simp [objDeleteList]
  | cons e rest ih =>
      by_cases hk : e.1 ∈ ks
      · simp only [objDeleteList, hk, if_true]
        exact ih.cons e
      · simp only [objDeleteList, hk, if_false]
        exact ih.cons₂ e

theorem mem_mapFst_objDeleteList {α : Type} (its : List (String × α)) (ks : List String)
    (k : String) :
    k ∈ (objDeleteList its ks).map Prod.fst ↔ k ∈ its.map Prod.fst ∧ k ∉ ks := by
  induction its with
  | nil => simp [objDeleteList]
  | cons e rest ih =>
      obtain ⟨k₀, v₀⟩ := e
      by_cases hk₀ : k₀ ∈ ks
      · simp only [objDeleteList, hk₀, if_true, List.map_cons, List.mem_cons]
        rw [ih]
        constructor
        · exact fun h => ⟨Or.inr h.1, h.2⟩
        · rintro ⟨h | h, h2⟩
          · subst h; exact absurd hk₀ h2
          · exact ⟨h, h2⟩
      · simp only [objDeleteList, hk₀, if_false, List.map_cons, List.mem_cons]
        rw [ih]
        constructor
        · rintro (h | h)
          · subst h; exact ⟨Or.inl rfl, hk₀⟩
          · exact ⟨Or.inr h.1, h.2⟩
        · rintro ⟨h | h, h2⟩
          · exact Or.inl h
          · exact Or.inr ⟨h, h2⟩

theorem sumVals_objSet_bump (scs : List (String × Nat)) (s : String) :
    sumVals (objSet scs s ((objGet scs s).getD 0 + 1)) = sumVals scs + 1 := by
  induction scs with
  | nil => simp [sumVals, objGet, objSet]
  | cons e rest ih =>
      obtain ⟨k, v⟩ := e
      by_cases h : k = s
      · subst h
        simp [sumVals, objGet, objSet]
        omega
      · simp only [sumVals, objGet, objSet, h, if_false, List.map_cons, List.sum_cons] at ih ⊢
        rw [ih, Nat.add_assoc]

/-! ### Capacity enforcement and upsert characterization -/

theorem enforceLimit_order (maxPerTab : Nat) (d : TabData) :
    (enforceLimit maxPerTab d).order = d.order.take maxPerTab := by
  unfold enforceLimit
  by_cases h : maxPerTab < d.order.length
  · simp [h]
  · simp [h, List.take_of_length_le (Nat.le_of_not_lt h)]

theorem enforceLimit_objGet (maxPerTab : Nat) (d : TabData) (k : String) :
    objGet (enforceLimit maxPerTab d).items k =
      if k ∈ d.order.drop maxPerTab then none else objGet d.items k := by
  unfold enforceLimit
  by_cases h : maxPerTab < d.order.length
  · simp only [h, if_true]
    exact objGet_objDeleteList d.items (d.order.drop maxPerTab) k
  · have hd : d.order.drop maxPerTab = [] :=
      List.drop_eq_nil_of_le (Nat.le_of_not_lt h)
    simp [h, hd]

theorem take_drop_disjoint {α : Type} (l : List α) (n : Nat) (h : l.Nodup) :
    List.Disjoint (l.take n) (l.drop n) := by
  have hn : (l.take n ++ l.drop n).Nodup := by
    rw [List.take_append_drop]; exact h
  exact (List.nodup_append.mp hn).2.2

theorem enforceLimit_inv (maxPerTab : Nat) (d : TabData) (hinv : TabInv d) :
    TabInv (enforceLimit maxPerTab d) := by
  obtain ⟨h1, h2, h3⟩ := hinv
  unfold enforceLimit
  by_cases h : maxPerTab < d.order.length
  · simp only [h, if_true]
    refine ⟨h1.sublist (List.take_sublist _ _), ?_, ?_⟩
    · exact h2.sublist (List.Sublist.map Prod.fst (objDeleteList_sublist _ _))
    · intro k
      rw [mem_mapFst_objDeleteList, h3]
      constructor
      · rintro ⟨hmem, hnd⟩
        have : k ∈ d.order.take maxPerTab ++ d.order.drop maxPerTab := by
          rw [List.take_append_drop]; exact hmem
        rcases List.mem_append.mp this with ht | hd
        · exact ht
        · exact absurd hd hnd
      · intro ht
        exact ⟨List.take_subset _ _ ht, fun hd => take_drop_disjoint d.order maxPerTab h1 ht hd⟩
  · simp only [h, if_false]
    exact ⟨h1, h2, h3⟩

theorem upsertTab_present (maxPerTab now : Nat) (method endpoint : String)
    (statusCode : Option Status) (sizeBytes : Option Int) (d : TabData)
    (rec : EndpointRecord) (h : objGet d.items (makeKey method endpoint) = some rec) :
    upsertTab maxPerTab now method endpoint statusCode sizeBytes d =
      enforceLimit maxPerTab
        { items :=
            objSet d.items (makeKey method endpoint)
              (updateRecord now statusCode sizeBytes rec)
          order := d.order } := by
  simp only [upsertTab, h]

theorem upsertTab_absent (maxPerTab now : Nat) (method endpoint : String)
    (statusCode : Option Status) (sizeBytes : Option Int) (d : TabData)
    (h : objGet d.items (makeKey method endpoint) = none) :
    upsertTab maxPerTab now method endpoint statusCode sizeBytes d =
      enforceLimit maxPerTab
        { items :=
            objSet d.items (makeKey method endpoint)
              (updateRecord now statusCode sizeBytes
                (freshRecord (makeKey method endpoint) method endpoint now))
          order := makeKey method endpoint :: d.order } := by
  simp only [upsertTab, h, objSet_objSet]

theorem upsertTab_inv (maxPerTab now : Nat) (method endpoint : String)
    (statusCode : Option Status) (sizeBytes : Option Int) (d : TabData)
    (hinv : TabInv d) :
    TabInv (upsertTab maxPerTab now method endpoint statusCode sizeBytes d) := by
  obtain ⟨h1, h2, h3⟩ := hinv
  cases ho : objGet d.items (makeKey method endpoint) with
  | some rec =>
      rw [upsertTab_present maxPerTab now method endpoint statusCode sizeBytes d rec ho]
      apply enforceLimit_inv
      have hk : makeKey method endpoint ∈ d.items.map Prod.fst :=
        (objGet_isSome_iff_mem _ _).mp (by simp [ho])
      refine ⟨h1, ?_, ?_⟩
      · rw [mapFst_objSet_mem _ _ _ hk]; exact h2
      · intro k; rw [mapFst_objSet_mem _ _ _ hk]; exact h3 k
  | none =>
      rw [upsertTab_absent maxPerTab now method endpoint statusCode sizeBytes d ho]
      apply enforceLimit_inv
      have hk : makeKey method endpoint ∉ d.items.map Prod.fst :=
        (objGet_none_iff_not_mem _ _).mp ho
      have hko : makeKey method endpoint ∉ d.order := fun hmem => hk ((h3 _).mpr hmem)
      refine ⟨List.nodup_cons.mpr ⟨hko, h1⟩, ?_, ?_⟩
      · rw [mapFst_objSet_not_mem _ _ _ hk]
        rw [List.nodup_append]
        exact ⟨h2, List.nodup_singleton _, fun a ha hb => hk (by
          rw [List.mem_singleton] at hb
          rwa [hb] at ha)⟩
      · intro k
        rw [mapFst_objSet_not_mem _ _ _ hk]
        rw [List.mem_append, List.mem_singleton, List.mem_cons, h3 k]
        tauto

theorem upsertTab_order_present (maxPerTab now : Nat) (method endpoint : String)
    (statusCode : Option Status) (sizeBytes : Option Int) (d : TabData)
    (rec : EndpointRecord) (h : objGet d.items (makeKey method endpoint) = some rec) :
    (upsertTab maxPerTab now method endpoint statusCode sizeBytes d).order =
      d.order.take maxPerTab := by
  rw [upsertTab_present maxPerTab now method endpoint statusCode sizeBytes d rec h,
    enforceLimit_order]

theorem upsertTab_order_absent (maxPerTab now : Nat) (method endpoint : String)
    (statusCode : Option Status) (sizeBytes : Option Int) (d : TabData)
    (h : objGet d.items (makeKey method endpoint) = none) :
    (upsertTab maxPerTab now method endpoint statusCode sizeBytes d).order =
      (makeKey method endpoint :: d.order).take maxPerTab := by
  rw [upsertTab_absent maxPerTab now method endpoint statusCode sizeBytes d h,
    enforceLimit_order]

/-! ### Concrete instances used by witnesses -/

/-- A sample compile function: pattern `"!"` fails to compile, any other
pattern matches exactly itself. -/
def compileEq : String → Option JsRegex :=
  fun p => if p = "!" then none else some ⟨fun t => p == t⟩

/-- A sample URL parse function recognising two fixed URLs that differ only
in their query string. -/
def parseEx : String → Option URLParts :=
  fun s =>
    if s = "https://x.com/api?a=1" then
      some { origin := "https://x.com", pathname := "/api", search := "?a=1" }
    else if s = "https://x.com/api?a=2" then
      some { origin := "https://x.com", pathname := "/api", search := "?a=2" }
    else none

/-- Default-like settings with no patterns, used by witnesses. -/
def settingsEx : Settings :=
  { captureTypes := ["xmlhttprequest", "fetch"]
    includeQueryString := false
    apiIncludePatterns := []
    apiExcludePatterns := []
    maxPerTab := 2000 }

/-- A pending entry attributed to no tab (negative `tabId`). -/
def metaNeg : PendingRequest :=
  { tabId := -1, method := "GET", endpoint := "https://x.com/api", sizeBytes := none }

/-- A pending entry on tab 0. -/
def metaPos : PendingRequest :=
  { tabId := 0, method := "GET", endpoint := "https://x.com/api", sizeBytes := none }

/-- A correlator holding `metaNeg` under requestId `"r1"`. -/
def cacheNeg : String → Option PendingRequest :=
  fun x => if x = "r1" then some metaNeg else none

/-- A correlator holding `metaPos` under requestId `"r1"`. -/
def cachePos : String → Option PendingRequest :=
  fun x => if x = "r1" then some metaPos else none

/-- System state: `metaNeg` pending, empty store. -/
def stNeg : SysState := { cache := cacheNeg, store := emptyStore }

/-- System state: `metaPos` pending, empty store. -/
def stPos : SysState := { cache := cachePos, store := emptyStore }

/-! ### C4: the classification decision rule -/

/-- C4: `isApiUrl` returns true iff (the compiled include set is empty or the
endpoint matches some include pattern) and the endpoint matches no exclude
pattern; a pattern that fails to compile is dropped from `safeRegexList`
without affecting the other patterns. -/
theorem isApiUrl_decision_spec :
    (∀ (compile : String → Option JsRegex) (p : String) (ps : List String),
        compile p = none →
        safeRegexList compile (p :: ps) = safeRegexList compile ps) ∧
    (∀ (compile : String → Option JsRegex) (url : String) (settings : Settings),
        isApiUrl compile url settings = true ↔
          ((safeRegexList compile settings.apiIncludePatterns = [] ∨
              ∃ r ∈ safeRegexList compile settings.apiIncludePatterns,
                r.test url = true) ∧
            ∀ r ∈ safeRegexList compile settings.apiExcludePatterns,
              r.test url = false)) := by
  constructor
  · intro compile p ps h
    simp [safeRegexList, h]
  · intro compile url settings
    have hincl : ∀ (inc : List JsRegex),
        (if inc.length ≠ 0 then inc.any (fun r => r.test url) else true) = true ↔
          (inc = [] ∨ ∃ r ∈ inc, r.test url = true) := by
      intro inc
      by_cases h : inc.length = 0
      · have hnil : inc = [] := List.length_eq_zero.mp h
        simp [hnil]
      · rw [if_pos h, List.any_eq_true]
        constructor
        · exact fun hex => Or.inr hex
        · rintro (hnil | hex)
          · exact absurd (by rw [hnil] : inc.length = [].length) h
          · exact hex
    have hexcl : ∀ (exc : List JsRegex),
        (if exc.length ≠ 0 then exc.any (fun r => r.test url) else false) = false ↔
          ∀ r ∈ exc, r.test url = false := by
      intro exc
      by_cases h : exc.length = 0
      · have hnil : exc = [] := List.length_eq_zero.mp h
        simp [hnil]
      · rw [if_pos h, List.any_eq_false]
        simp only [Bool.not_eq_true]
    unfold isApiUrl
    rw [Bool.and_eq_true, Bool.not_eq_true',
      hincl (safeRegexList compile settings.apiIncludePatterns),
      hexcl (safeRegexList compile settings.apiExcludePatterns)]

/-- Witness for C4 at a concrete compile function, pattern lists and URL. -/
theorem isApiUrl_decision_spec_witness :
    compileEq "!" = none ∧
    safeRegexList compileEq ["!", "a"] = safeRegexList compileEq ["a"] ∧
    (isApiUrl compileEq "a"
        { settingsEx with apiIncludePatterns := ["a"], apiExcludePatterns := ["b"] } = true ↔
      ((safeRegexList compileEq ["a"] = [] ∨
          ∃ r ∈ safeRegexList compileEq ["a"], r.test "a" = true) ∧
        ∀ r ∈ safeRegexList compileEq ["b"], r.test "a" = false)) :=
  ⟨by simp [compileEq],
   isApiUrl_decision_spec.1 compileEq "!" ["a"] (by simp [compileEq]),
   isApiUrl_decision_spec.2 compileEq "a"
     { settingsEx with apiIncludePatterns := ["a"], apiExcludePatterns := ["b"] }⟩

/-! ### C8: URL normalization and the query string -/

/-- C8: two URLs that parse to the same origin and path normalize to the same
endpoint without the query string; with the query string included, distinct
queries give distinct endpoints; a string that fails to parse is returned
unchanged. -/
theorem normalizeUrl_query_spec :
    (∀ (parse : String → Option URLParts) (r1 r2 : String) (u1 u2 : URLParts),
        parse r1 = some u1 → parse r2 = some u2 →
        u1.origin = u2.origin → u1.pathname = u2.pathname →
        normalizeUrl parse r1 false = normalizeUrl parse r2 false ∧
          (u1.search ≠ u2.search →
            normalizeUrl parse r1 true ≠ normalizeUrl parse r2 true)) ∧
    (∀ (parse : String → Option URLParts) (r : String) (b : Bool),
        parse r = none → normalizeUrl parse r b = r) := by
  constructor
  · intro parse r1 r2 u1 u2 h1 h2 ho hp
    unfold normalizeUrl
    rw [h1, h2]
    constructor
    · simp [ho, hp]
    · intro hs heq
      simp only [if_true] at heq
      rw [ho, hp] at heq
      have hd := congrArg String.data heq
      simp only [String.data_append] at hd
      exact hs (String.ext (List.append_cancel_left hd))
  · intro parse r b h
    unfold normalizeUrl
    rw [h]

/-- Witness for C8 at two concrete URLs differing only in the query, and one
unparseable string. -/
theorem normalizeUrl_query_spec_witness :
    parseEx "https://x.com/api?a=1" =
      some { origin := "https://x.com", pathname := "/api", search := "?a=1" } ∧
    parseEx "https://x.com/api?a=2" =
      some { origin := "https://x.com", pathname := "/api", search := "?a=2" } ∧
    parseEx "not a url" = none ∧
    (normalizeUrl parseEx "https://x.com/api?a=1" false =
        normalizeUrl parseEx "https://x.com/api?a=2" false ∧
      (({ origin := "https://x.com", pathname := "/api", search := "?a=1" } : URLParts).search ≠
          ({ origin := "https://x.com", pathname := "/api", search := "?a=2" } : URLParts).search →
        normalizeUrl parseEx "https://x.com/api?a=1" true ≠
          normalizeUrl parseEx "https://x.com/api?a=2" true)) ∧
    normalizeUrl parseEx "not a url" true = "not a url" :=
  ⟨by decide, by decide, by decide,
   normalizeUrl_query_spec.1 parseEx "https://x.com/api?a=1" "https://x.com/api?a=2"
     { origin := "https://x.com", pathname := "/api", search := "?a=1" }
     { origin := "https://x.com", pathname := "/api", search := "?a=2" }
     (by decide) (by decide) (by decide) (by decide),
   normalizeUrl_query_spec.2 parseEx "not a url" true (by decide)⟩

/-! ### C10: negative tabId is a complete no-op for the store -/

/-- C10: `upsertApiCall` with a negative tabId returns the store unchanged
without touching any tab table, and a terminal event whose pending entry
carries a negative tabId leaves every stored table unchanged (the upsert
returns before any storage access, so it also cannot fail). -/
theorem negative_tab_upsert_frame :
    (∀ (settings : Settings) (now : Nat) (tabId : Int) (method endpoint : String)
        (statusCode : Option Status) (sizeBytes : Option Int) (s : Store),
        tabId < 0 →
        upsertApiCall settings now tabId method endpoint statusCode sizeBytes s = s) ∧
    (∀ (settings : Settings) (now : Nat) (persistOk : Bool) (requestId : String)
        (statusCode : Option Int) (st : SysState) (meta : PendingRequest),
        st.cache requestId = some meta → meta.tabId < 0 →
        (onCompletedStep settings now persistOk requestId statusCode st).1.store =
            st.store ∧
          (onCompletedStep settings now persistOk requestId statusCode st).2 = true ∧
          (onErrorOccurredStep settings now persistOk requestId st).1.store = st.store ∧
          (onErrorOccurredStep settings now persistOk requestId st).2 = true) := by
  constructor
  · intro settings now tabId method endpoint statusCode sizeBytes s h
    unfold upsertApiCall
    rw [if_pos h]
  · intro settings now persistOk requestId statusCode st meta hc h
    unfold onCompletedStep onErrorOccurredStep upsertApiCallE
    rw [hc]
    simp [h]

/-- Witness for C10 at a concrete negative tabId and a concrete pending
entry. -/
theorem negative_tab_upsert_frame_witness :
    ((-1 : Int) < 0 ∧
      upsertApiCall settingsEx 5 (-1) "GET" "https://x.com/api" none none emptyStore =
        emptyStore) ∧
    (stNeg.cache "r1" = some metaNeg ∧ metaNeg.tabId < 0 ∧
      (onCompletedStep settingsEx 5 true "r1" (some 200) stNeg).1.store = stNeg.store) :=
  ⟨⟨by decide,
    negative_tab_upsert_frame.1 settingsEx 5 (-1) "GET" "https://x.com/api" none none
      emptyStore (by decide)⟩,
   ⟨by decide, by decide,
    (negative_tab_upsert_frame.2 settingsEx 5 true "r1" (some 200) stNeg metaNeg
      (by decide) (by decide)).1⟩⟩

/-! ### C7: start events with a negative tabId -/

/-- C7 counterexample: a start event with `tabId = -1`, a captured resource
type and an endpoint that passes classification does create a pending
correlator entry — `onBeforeRequest` never checks the tabId sign, so the
claim that no entry is created is false. -/
theorem negative_tab_start_cex :
    onBeforeRequestStep compileEq parseEx settingsEx
        { requestId := "r1", tabId := -1, method := some "GET",
          url := "https://x.com/api", type := "xmlhttprequest" }
        (fun _ => none) "r1" =
      some { tabId := -1, method := "GET", endpoint := "https://x.com/api",
             sizeBytes := none } ∧
    onBeforeRequestStep compileEq parseEx settingsEx
        { requestId := "r1", tabId := -1, method := some "GET",
          url := "https://x.com/api", type := "xmlhttprequest" }
        (fun _ => none) "r1" ≠ none := by
  constructor
  · decide
  · decide

/-- C7 (amended): a qualifying start event creates a pending entry regardless
of the tabId's sign; negative tabIds are rejected only later, inside
`upsertApiCall` at terminal time, which stores nothing and still removes the
entry. -/
theorem negative_tab_start_spec :
    (∀ (compile : String → Option JsRegex) (parse : String → Option URLParts)
        (settings : Settings) (details : StartDetails)
        (cache : String → Option PendingRequest),
        settings.captureTypes.contains details.type = true →
        isApiUrl compile (normalizeUrl parse details.url settings.includeQueryString)
            settings = true →
        onBeforeRequestStep compile parse settings details cache details.requestId =
          some { tabId := details.tabId
                 method := jsOrDefault details.method "GET"
                 endpoint := normalizeUrl parse details.url settings.includeQueryString
                 sizeBytes := none }) ∧
    (∀ (settings : Settings) (now : Nat) (persistOk : Bool) (requestId : String)
        (statusCode : Option Int) (st : SysState) (meta : PendingRequest),
        st.cache requestId = some meta → meta.tabId < 0 →
        onCompletedStep settings now persistOk requestId statusCode st =
          ({ cache := cacheDelete st.cache requestId, store := st.store }, true)) := by
  constructor
  · intro compile parse settings details cache hcap happ
    unfold onBeforeRequestStep
    rw [if_pos hcap, if_pos happ]
    unfold cacheSet
    rw [if_pos rfl]
  · intro settings now persistOk requestId statusCode st meta hc ht
    unfold onCompletedStep
    rw [hc]
    simp [upsertApiCallE, ht]

/-- Witness for C7's amended claim: the entry is created for a concrete
negative-tab start event, and the terminal event then leaves the store
unchanged while consuming the entry. -/
theorem negative_tab_start_spec_witness :
    settingsEx.captureTypes.contains "xmlhttprequest" = true ∧
    isApiUrl compileEq (normalizeUrl parseEx "https://x.com/api" settingsEx.includeQueryString)
      settingsEx = true ∧
    onBeforeRequestStep compileEq parseEx settingsEx
        { requestId := "r1", tabId := -1, method := some "GET",
          url := "https://x.com/api", type := "xmlhttprequest" }
        (fun _ => none) "r1" =
      some { tabId := -1
             method := jsOrDefault (some "GET") "GET"
             endpoint := normalizeUrl parseEx "https://x.com/api" settingsEx.includeQueryString
             sizeBytes := none } ∧
    stNeg.cache "r1" = some metaNeg ∧ metaNeg.tabId < 0 ∧
    onCompletedStep settingsEx 5 true "r1" (some 200) stNeg =
      ({ cache := cacheDelete stNeg.cache "r1", store := stNeg.store }, true) :=
  ⟨by decide, by decide,
   negative_tab_start_spec.1 compileEq parseEx settingsEx
     { requestId := "r1", tabId := -1, method := some "GET",
       url := "https://x.com/api", type := "xmlhttprequest" }
     (fun _ => none) (by decide) (by decide),
   by decide, by decide,
   negative_tab_start_spec.2 settingsEx 5 true "r1" (some 200) stNeg metaNeg
     (by decide) (by decide)⟩

/-! ### C6: size extraction from the headers event -/

/-- C6 counterexample: a length header whose value is `"-5"` parses (JS
`parseInt` accepts a sign), so `sizeBytes` is updated to the negative value
`-5` — refuting the claim that only non-negative values are accepted. -/
theorem headers_negative_size_cex :
    onHeadersReceivedStep "r1"
        (some [{ name := some "Content-Length", value := some "-5" }]) cachePos "r1" =
      some { metaPos with sizeBytes := some (-5) } ∧
    ¬ (0 : Int) ≤ -5 ∧
    onHeadersReceivedStep "r1"
        (some [{ name := some "Content-Length", value := some "-5" }]) cachePos "r1" ≠
      some metaPos := by
  refine ⟨by decide, by decide, by decide⟩

/-- C6 (amended): on a headers event for a tracked request, `sizeBytes` is
set exactly when the length header is present (case-insensitive name match)
and parses as a base-10 integer — of either sign; otherwise the entry is
written back unchanged.  Untracked requests are a no-op. -/
theorem headers_size_update_spec :
    ∀ (requestId : String) (hs : Option (List Header))
      (cache : String → Option PendingRequest) (meta : PendingRequest),
      cache requestId = some meta →
      (toIntOrNull (getHeaderValue hs "content-length") = none →
        onHeadersReceivedStep requestId hs cache = cacheSet cache requestId meta) ∧
      (∀ n : Int, toIntOrNull (getHeaderValue hs "content-length") = some n →
        onHeadersReceivedStep requestId hs cache =
          cacheSet cache requestId { meta with sizeBytes := some n }) ∧
      (∀ requestId', cache requestId' = none →
        onHeadersReceivedStep requestId' hs cache = cache) := by
  intro requestId hs cache meta hc
  refine ⟨?_, ?_, ?_⟩
  · intro hnone
    unfold onHeadersReceivedStep
    rw [hc]
    simp only [hnone]
  · intro n hsome
    unfold onHeadersReceivedStep
    rw [hc]
    simp only [hsome]
  · intro requestId' hmiss
    unfold onHeadersReceivedStep
    rw [hmiss]

/-- Witness for C6's amended claim at a parseable and an unparseable
header value. -/
theorem headers_size_update_spec_witness :
    cachePos "r1" = some metaPos ∧
    toIntOrNull (getHeaderValue
      (some [{ name := some "Content-Length", value := some "120" }]) "content-length") =
      some 120 ∧
    onHeadersReceivedStep "r1"
        (some [{ name := some "Content-Length", value := some "120" }]) cachePos =
      cacheSet cachePos "r1" { metaPos with sizeBytes := some 120 } ∧
    toIntOrNull (getHeaderValue
      (some [{ name := some "Content-Length", value := some "abc" }]) "content-length") =
      none ∧
    onHeadersReceivedStep "r1"
        (some [{ name := some "Content-Length", value := some "abc" }]) cachePos =
      cacheSet cachePos "r1" metaPos :=
  ⟨by decide, by decide,
   (headers_size_update_spec "r1"
       (some [{ name := some "Content-Length", value := some "120" }]) cachePos metaPos
       (by decide)).2.1 120 (by decide),
   by decide,
   (headers_size_update_spec "r1"
       (some [{ name := some "Content-Length", value := some "abc" }]) cachePos metaPos
       (by decide)).1 (by decide)⟩

/-! ### C5: terminal events with a null status -/

/-- C5 counterexample: after a 200-status event, a null-status event on the
same key leaves `lastStatus = 200` — the code only writes `lastStatus` when
the status is non-null, so it is not reset to null as the claim states. -/
theorem null_status_lastStatus_cex :
    (objGet
        (upsertTab 10 7 "GET" "a" none none
          (upsertTab 10 5 "GET" "a" (some (Status.code 200)) none emptyTabData)).items
        (makeKey "GET" "a")).map EndpointRecord.lastStatus =
      some (some (Status.code 200)) ∧
    (objGet
        (upsertTab 10 7 "GET" "a" none none
          (upsertTab 10 5 "GET" "a" (some (Status.code 200)) none emptyTabData)).items
        (makeKey "GET" "a")).map EndpointRecord.lastStatus ≠ some none := by
  refine ⟨by decide, by decide⟩

/-- C5 (amended): a null-status terminal event increments nothing in
`statusCounts` and leaves `lastStatus` untouched: it is null on a freshly
created record, and keeps its previous value on an existing record. -/
theorem null_status_upsert_spec :
    ∀ (maxPerTab now : Nat) (method endpoint : String) (sizeBytes : Option Int)
      (d : TabData),
      d.order.length < maxPerTab →
      (objGet d.items (makeKey method endpoint) = none →
        ∃ rec', objGet (upsertTab maxPerTab now method endpoint none sizeBytes d).items
            (makeKey method endpoint) = some rec' ∧
          rec'.lastStatus = none ∧ rec'.statusCounts = []) ∧
      (∀ rec, objGet d.items (makeKey method endpoint) = some rec →
        ∃ rec', objGet (upsertTab maxPerTab now method endpoint none sizeBytes d).items
            (makeKey method endpoint) = some rec' ∧
          rec'.lastStatus = rec.lastStatus ∧ rec'.statusCounts = rec.statusCounts) := by
  intro maxPerTab now method endpoint sizeBytes d hlen
  constructor
  · intro habs
    rw [upsertTab_absent maxPerTab now method endpoint none sizeBytes d habs]
    rw [show (∃ rec', _) ↔ _ from Iff.rfl]
    refine ⟨updateRecord now none sizeBytes
      (freshRecord (makeKey method endpoint) method endpoint now), ?_, ?_, ?_⟩
    · rw [enforceLimit_objGet]
      have hdrop : (makeKey method endpoint :: d.order).drop maxPerTab = [] :=
        List.drop_eq_nil_of_le (by simpa using hlen)
      rw [hdrop]
      simp only [List.not_mem_nil, if_false]
      exact objGet_objSet_self _ _ _
    · cases sizeBytes <;> simp [updateRecord, freshRecord]
    · cases sizeBytes <;> simp [updateRecord, freshRecord]
  · intro rec hpres
    rw [upsertTab_present maxPerTab now method endpoint none sizeBytes d rec hpres]
    refine ⟨updateRecord now none sizeBytes rec, ?_, ?_, ?_⟩
    · rw [enforceLimit_objGet]
      have hdrop : d.order.drop maxPerTab = [] :=
        List.drop_eq_nil_of_le (Nat.le_of_lt hlen)
      rw [hdrop]
      simp only [List.not_mem_nil, if_false]
      exact objGet_objSet_self _ _ _
    · cases sizeBytes <;> simp [updateRecord]
    · cases sizeBytes <;> simp [updateRecord]

/-- Witness for C5's amended claim: a null-status event on an empty table
creates the record with `lastStatus = none` and empty `statusCounts`. -/
theorem null_status_upsert_spec_witness :
    emptyTabData.order.length < 10 ∧
    objGet emptyTabData.items (makeKey "GET" "a") = none ∧
    ∃ rec', objGet (upsertTab 10 7 "GET" "a" none none emptyTabData).items
        (makeKey "GET" "a") = some rec' ∧
      rec'.lastStatus = none ∧ rec'.statusCounts = [] :=
  ⟨by decide, by decide,
   (null_status_upsert_spec 10 7 "GET" "a" none emptyTabData (by decide)).1 (by decide)⟩

/-! ### C3: exactly-once consumption of the pending entry -/

/-- C3 counterexample: when the upsert fails (persistence rejects), the
`requestCache.delete` after the `await` is never reached, so the pending
entry is still in the correlator — refuting "a failed upsert never leaves
the pending entry". -/
theorem terminal_pending_leak_cex :
    (onCompletedStep settingsEx 5 false "r1" (some 200) stPos).2 = false ∧
    (onCompletedStep settingsEx 5 false "r1" (some 200) stPos).1.cache "r1" =
      some metaPos ∧
    (onErrorOccurredStep settingsEx 5 false "r1" stPos).2 = false ∧
    (onErrorOccurredStep settingsEx 5 false "r1" stPos).1.cache "r1" =
      some metaPos := by
  refine ⟨by decide, by decide, by decide, by decide⟩

/-- C3 (amended): on a terminal event for a tracked request, the pending
entry is deleted exactly when the upsert completes; when the upsert fails
the listener returns with the whole state unchanged, the pending entry still
present.  A successful persist always completes the listener. -/
theorem terminal_pending_consumption :
    ∀ (settings : Settings) (now : Nat) (persistOk : Bool) (requestId : String)
      (statusCode : Option Int) (st : SysState) (meta : PendingRequest),
      st.cache requestId = some meta →
      ((onCompletedStep settings now persistOk requestId statusCode st).2 = true →
        (onCompletedStep settings now persistOk requestId statusCode st).1.cache
          requestId = none) ∧
      ((onCompletedStep settings now persistOk requestId statusCode st).2 = false →
        onCompletedStep settings now persistOk requestId statusCode st = (st, false) ∧
          st.cache requestId = some meta) ∧
      (persistOk = true →
        (onCompletedStep settings now persistOk requestId statusCode st).2 = true) ∧
      ((onErrorOccurredStep settings now persistOk requestId st).2 = true →
        (onErrorOccurredStep settings now persistOk requestId st).1.cache requestId =
          none) ∧
      ((onErrorOccurredStep settings now persistOk requestId st).2 = false →
        onErrorOccurredStep settings now persistOk requestId st = (st, false) ∧
          st.cache requestId = some meta) ∧
      (persistOk = true →
        (onErrorOccurredStep settings now persistOk requestId st).2 = true) := by
  intro settings now persistOk requestId statusCode st meta hc
  unfold onCompletedStep onErrorOccurredStep
  rw [hc]
  by_cases ht : meta.tabId < 0
  · simp only [upsertApiCallE, ht, if_true]
    refine ⟨?_, ?_, ?_, ?_, ?_, ?_⟩ <;>
      simp [cacheDelete]
  · by_cases hp : persistOk = true
    · subst hp
      simp only [upsertApiCallE, ht, if_false, if_true]
      refine ⟨?_, ?_, ?_, ?_, ?_, ?_⟩ <;>
        simp [cacheDelete]
    · rw [Bool.not_eq_true] at hp
      subst hp
      simp only [upsertApiCallE, ht, if_false, Bool.false_eq_true]
      refine ⟨?_, ?_, ?_, ?_, ?_, ?_⟩ <;>
        simp [hc]

/-- Witness for C3's amended claim: success deletes the entry; failure
returns the state unchanged with the entry still pending. -/
theorem terminal_pending_consumption_witness :
    stPos.cache "r1" = some metaPos ∧
    ((onCompletedStep settingsEx 5 true "r1" (some 200) stPos).2 = true →
      (onCompletedStep settingsEx 5 true "r1" (some 200) stPos).1.cache "r1" = none) ∧
    ((onCompletedStep settingsEx 5 false "r1" (some 200) stPos).2 = false →
      onCompletedStep settingsEx 5 false "r1" (some 200) stPos = (stPos, false) ∧
        stPos.cache "r1" = some metaPos) :=
  ⟨by decide,
   (terminal_pending_consumption settingsEx 5 true "r1" (some 200) stPos metaPos
     (by decide)).1,
   (terminal_pending_consumption settingsEx 5 false "r1" (some 200) stPos metaPos
     (by decide)).2.1⟩

/-! ### C9: items/order agreement invariant -/

theorem tabInv_empty : TabInv emptyTabData := by
  simp [TabInv, emptyTabData]

theorem tabInv_length (d : TabData) (h : TabInv d) :
    d.items.length = d.order.length := by
  obtain ⟨h1, h2, h3⟩ := h
  have hperm : List.Perm (d.items.map Prod.fst) d.order :=
    (List.perm_ext_iff_of_nodup h2 h1).mpr h3
  have hlen := hperm.length_eq
  rwa [List.length_map] at hlen

theorem tabInv_getTabData (s : Store) (hs : StoreInv s) (tabId : Int) :
    TabInv (getTabData s tabId) := by
  unfold getTabData
  cases hst : s tabId with
  | none => simpa using tabInv_empty
  | some d0 => simpa using hs tabId d0 hst

/-- C9: upsert, clear and tab-closure removal all preserve the invariant that
a stored tab table's `order` is duplicate-free and enumerates exactly the
keys present in `items`; consequently `order.length` equals the number of
stored records. -/
theorem store_invariant_spec :
    ∀ (s : Store), StoreInv s →
      (∀ (settings : Settings) (now : Nat) (tabId : Int) (method endpoint : String)
          (statusCode : Option Status) (sizeBytes : Option Int),
        StoreInv (upsertApiCall settings now tabId method endpoint statusCode sizeBytes s)) ∧
      (∀ tabId, StoreInv (clearTab s tabId)) ∧
      (∀ tabId, StoreInv (removeTabData s tabId)) ∧
      (∀ t d, s t = some d →
        d.order.Nodup ∧ (∀ k, (objGet d.items k).isSome ↔ k ∈ d.order) ∧
          d.items.length = d.order.length) := by
  intro s hs
  refine ⟨?_, ?_, ?_, ?_⟩
  · intro settings now tabId method endpoint statusCode sizeBytes
    unfold upsertApiCall
    by_cases ht : tabId < 0
    · rw [if_pos ht]; exact hs
    · rw [if_neg ht]
      intro t d hd
      unfold setTabData at hd
      by_cases hteq : t = tabId
      · rw [if_pos hteq] at hd
        injection hd with hd
        rw [← hd]
        exact upsertTab_inv _ _ _ _ _ _ _ (tabInv_getTabData s hs tabId)
      · rw [if_neg hteq] at hd
        exact hs t d hd
  · intro tabId t d hd
    unfold clearTab setTabData at hd
    by_cases hteq : t = tabId
    · rw [if_pos hteq] at hd
      injection hd with hd
      rw [← hd]
      exact tabInv_empty
    · rw [if_neg hteq] at hd
      exact hs t d hd
  · intro tabId t d hd
    unfold removeTabData at hd
    by_cases hteq : t = tabId
    · rw [if_pos hteq] at hd
      exact Option.noConfusion hd
    · rw [if_neg hteq] at hd
      exact hs t d hd
  · intro t d hd
    obtain ⟨h1, h2, h3⟩ := hs t d hd
    refine ⟨h1, fun k => ?_, tabInv_length d ⟨h1, h2, h3⟩⟩
    rw [objGet_isSome_iff_mem]
    exact h3 k

/-- Witness for C9 starting from the empty store. -/
theorem store_invariant_spec_witness :
    StoreInv emptyStore ∧
    StoreInv (upsertApiCall settingsEx 5 0 "GET" "a" none none emptyStore) ∧
    StoreInv (clearTab emptyStore 0) ∧
    StoreInv (removeTabData emptyStore 0) :=
  have h0 : StoreInv emptyStore := fun _ _ hd => Option.noConfusion hd
  ⟨h0,
   (store_invariant_spec emptyStore h0).1 settingsEx 5 0 "GET" "a" none none,
   (store_invariant_spec emptyStore h0).2.1 0,
   (store_invariant_spec emptyStore h0).2.2.1 0⟩

/-! ### C1: statistics of a terminal-event sequence on one key -/

theorem runUpserts_get (settings : Settings) (tabId : Int) (method endpoint : String)
    (ht : ¬ tabId < 0) :
    ∀ (evs : List TerminalEv) (s : Store),
      getTabData (runUpserts settings tabId method endpoint evs s) tabId =
        runTabUpserts settings.maxPerTab method endpoint evs (getTabData s tabId) := by
  intro evs
  induction evs with
  | nil => intro s; rfl
  | cons ev rest ih =>
      intro s
      have hstep : runUpserts settings tabId method endpoint (ev :: rest) s =
          runUpserts settings tabId method endpoint rest
            (upsertApiCall settings ev.now tabId method endpoint ev.status ev.size s) := rfl
      have hget : getTabData
            (upsertApiCall settings ev.now tabId method endpoint ev.status ev.size s) tabId =
          upsertTab settings.maxPerTab ev.now method endpoint ev.status ev.size
            (getTabData s tabId) := by
        unfold upsertApiCall
        rw [if_neg ht]
        unfold getTabData setTabData
        rw [if_pos rfl]
        rfl
      rw [hstep, ih, hget]
      rfl

theorem countSome_le (evs : List TerminalEv) : countSome evs ≤ evs.length :=
  List.length_filter_le _ _

theorem countSome_cons (ev : TerminalEv) (rest : List TerminalEv) :
    countSome (ev :: rest) = (if ev.status.isSome then 1 else 0) + countSome rest := by
  by_cases h : ev.status.isSome
  · simp [countSome, List.filter_cons, h, Nat.add_comm]
  · simp [countSome, List.filter_cons, h]

theorem countSome_lt_iff (evs : List TerminalEv) :
    countSome evs < evs.length ↔ ∃ ev ∈ evs, ev.status = none := by
  induction evs with
  | nil => simp [countSome]
  | cons ev rest ih =>
      by_cases hst : ev.status.isSome
      · obtain ⟨sc, hv⟩ : ∃ sc, ev.status = some sc := Option.isSome_iff_exists.mp hst
        have hne : ¬ ev.status = none := by
          rw [hv]; exact fun h => Option.noConfusion h
        have hcs : countSome (ev :: rest) = 1 + countSome rest := by
          rw [countSome_cons, hv]
          simp
        rw [List.length_cons, hcs, Nat.add_comm 1 (countSome rest),
          Nat.succ_lt_succ_iff, ih]
        constructor
        · rintro ⟨x, hx, hxn⟩
          exact ⟨x, List.mem_cons_of_mem ev hx, hxn⟩
        · rintro ⟨x, hx, hxn⟩
          rcases List.mem_cons.mp hx with hx | hx
          · rw [hx] at hxn; exact absurd hxn hne
          · exact ⟨x, hx, hxn⟩
      · have hnone : ev.status = none := Option.not_isSome_iff_eq_none.mp hst
        have hcs : countSome (ev :: rest) = countSome rest := by
          rw [countSome_cons, hnone]
          simp
        rw [List.length_cons, hcs]
        constructor
        · intro _
          exact ⟨ev, List.mem_cons_self ev rest, hnone⟩
        · intro _
          exact Nat.lt_succ_of_le (countSome_le rest)

theorem foldlNow_eq_getLast :
    ∀ (l : List TerminalEv) (a : Nat) (h : l ≠ []),
      l.foldl (fun _ ev => ev.now) a = (l.getLast h).now := by
  intro l
  induction l with
  | nil => intro a h; exact absurd rfl h
  | cons ev rest ih =>
      intro a h
      cases rest with
      | nil => rfl
      | cons ev2 rest2 =>
          have hne : ev2 :: rest2 ≠ [] := List.cons_ne_nil ev2 rest2
          rw [List.getLast_cons hne]
          exact ih ev.now hne

theorem updateRecord_count (now : Nat) (sc : Option Status) (sz : Option Int)
    (it : EndpointRecord) : (updateRecord now sc sz it).count = it.count + 1 := by
  cases sc <;> cases sz <;> simp [updateRecord]

theorem updateRecord_lastSeen (now : Nat) (sc : Option Status) (sz : Option Int)
    (it : EndpointRecord) : (updateRecord now sc sz it).lastSeen = now := by
  cases sc <;> cases sz <;> simp [updateRecord]

theorem updateRecord_sum (now : Nat) (sc : Option Status) (sz : Option Int)
    (it : EndpointRecord) :
    sumVals (updateRecord now sc sz it).statusCounts =
      sumVals it.statusCounts + (if sc.isSome then 1 else 0) := by
  cases sc with
  | none => cases sz <;> simp [updateRecord]
  | some s => cases sz <;> simp [updateRecord, sumVals_objSet_bump]

theorem runTab_same_key (maxPerTab : Nat) (hmax : 1 ≤ maxPerTab)
    (method endpoint : String) :
    ∀ (evs : List TerminalEv) (d : TabData) (rec : EndpointRecord),
      d.order = [makeKey method endpoint] →
      objGet d.items (makeKey method endpoint) = some rec →
      ∃ rec', objGet (runTabUpserts maxPerTab method endpoint evs d).items
          (makeKey method endpoint) = some rec' ∧
        (runTabUpserts maxPerTab method endpoint evs d).order =
          [makeKey method endpoint] ∧
        rec'.count = rec.count + evs.length ∧
        rec'.lastSeen = evs.foldl (fun _ ev => ev.now) rec.lastSeen ∧
        sumVals rec'.statusCounts = sumVals rec.statusCounts + countSome evs := by
  intro evs
  induction evs with
  | nil =>
      intro d rec hord hget
      exact ⟨rec, hget, hord, by simp, rfl, by simp [countSome]⟩
  | cons ev rest ih =>
      intro d rec hord hget
      have hstep : runTabUpserts maxPerTab method endpoint (ev :: rest) d =
          runTabUpserts maxPerTab method endpoint rest
            (upsertTab maxPerTab ev.now method endpoint ev.status ev.size d) := rfl
      have hchar := upsertTab_present maxPerTab ev.now method endpoint ev.status ev.size d
        rec hget
      have hdroplen : d.order.length ≤ maxPerTab := by rw [hord]; simpa using hmax
      have hdrop : d.order.drop maxPerTab = [] := List.drop_eq_nil_of_le hdroplen
      have horder' :
          (upsertTab maxPerTab ev.now method endpoint ev.status ev.size d).order =
            [makeKey method endpoint] := by
        rw [hchar, enforceLimit_order]
        exact hord ▸ List.take_of_length_le hdroplen
      have hget' :
          objGet (upsertTab maxPerTab ev.now method endpoint ev.status ev.size d).items
              (makeKey method endpoint) =
            some (updateRecord ev.now ev.status ev.size rec) := by
        rw [hchar, enforceLimit_objGet]
        simp only [hdrop, List.not_mem_nil, if_false]
        exact objGet_objSet_self _ _ _
      obtain ⟨rec', h1, h2, h3, h4, h5⟩ :=
        ih (upsertTab maxPerTab ev.now method endpoint ev.status ev.size d)
          (updateRecord ev.now ev.status ev.size rec) horder' hget'
      refine ⟨rec', ?_, ?_, ?_, ?_, ?_⟩
      · rw [hstep]; exact h1
      · rw [hstep]; exact h2
      · rw [h3, updateRecord_count, List.length_cons]
        omega
      · rw [h4, updateRecord_lastSeen]
        rfl
      · rw [h5, updateRecord_sum, countSome_cons]
        omega

/-- C1: for any non-empty sequence of terminal events delivered to
`upsertApiCall` for one (tabId, method, endpoint) triple (tabId non-negative,
capacity positive), the resulting record has `count` equal to the number of
events, `lastSeen` equal to the last event's timestamp, and the sum of the
`statusCounts` values is at most `count`, strictly less exactly when some
event carried a null status. -/
theorem upsert_sequence_stats :
    ∀ (settings : Settings) (tabId : Int) (method endpoint : String)
      (evs : List TerminalEv) (hne : evs ≠ []),
      1 ≤ settings.maxPerTab → 0 ≤ tabId →
      ∃ rec, objGet
          (getTabData (runUpserts settings tabId method endpoint evs emptyStore)
            tabId).items (makeKey method endpoint) = some rec ∧
        rec.count = evs.length ∧
        rec.lastSeen = (evs.getLast hne).now ∧
        sumVals rec.statusCounts ≤ evs.length ∧
        (sumVals rec.statusCounts < evs.length ↔ ∃ ev ∈ evs, ev.status = none) := by
  intro settings tabId method endpoint evs hne hmax htab
  have ht : ¬ tabId < 0 := Int.not_lt.mpr htab
  rw [runUpserts_get settings tabId method endpoint ht evs emptyStore]
  cases evs with
  | nil => exact absurd rfl hne
  | cons ev rest =>
      have hstep : runTabUpserts settings.maxPerTab method endpoint (ev :: rest)
            (getTabData emptyStore tabId) =
          runTabUpserts settings.maxPerTab method endpoint rest
            (upsertTab settings.maxPerTab ev.now method endpoint ev.status ev.size
              emptyTabData) := rfl
      have habs : objGet emptyTabData.items (makeKey method endpoint) = none := rfl
      have hchar := upsertTab_absent settings.maxPerTab ev.now method endpoint ev.status
        ev.size emptyTabData habs
      have hlen1 : (makeKey method endpoint :: emptyTabData.order).length ≤
          settings.maxPerTab := by simpa [emptyTabData] using hmax
      have horder1 :
          (upsertTab settings.maxPerTab ev.now method endpoint ev.status ev.size
            emptyTabData).order = [makeKey method endpoint] := by
        rw [hchar, enforceLimit_order]
        exact List.take_of_length_le hlen1
      have hget1 :
          objGet (upsertTab settings.maxPerTab ev.now method endpoint ev.status ev.size
              emptyTabData).items (makeKey method endpoint) =
            some (updateRecord ev.now ev.status ev.size
              (freshRecord (makeKey method endpoint) method endpoint ev.now)) := by
        rw [hchar, enforceLimit_objGet]
        simp only [List.drop_eq_nil_of_le hlen1, List.not_mem_nil, if_false]
        exact objGet_objSet_self _ _ _
      obtain ⟨rec, h1, _h2, h3, h4, h5⟩ :=
        runTab_same_key settings.maxPerTab hmax method endpoint rest
          (upsertTab settings.maxPerTab ev.now method endpoint ev.status ev.size
            emptyTabData)
          (updateRecord ev.now ev.status ev.size
            (freshRecord (makeKey method endpoint) method endpoint ev.now))
          horder1 hget1
      have hcount : rec.count = (ev :: rest).length := by
        rw [h3, updateRecord_count]
        simp only [freshRecord, List.length_cons]
        omega
      have hlast : rec.lastSeen = ((ev :: rest).getLast hne).now := by
        rw [h4, updateRecord_lastSeen]
        cases rest with
        | nil => rfl
        | cons ev2 rest2 =>
            have hne2 : ev2 :: rest2 ≠ [] := List.cons_ne_nil ev2 rest2
            rw [List.getLast_cons hne2]
            exact foldlNow_eq_getLast (ev2 :: rest2) ev.now hne2
      have hsum : sumVals rec.statusCounts = countSome (ev :: rest) := by
        rw [h5, updateRecord_sum, countSome_cons]
        simp [freshRecord, sumVals]
      refine ⟨rec, ?_, hcount, hlast, ?_, ?_⟩
      · rw [hstep]; exact h1
      · rw [hsum]; exact countSome_le (ev :: rest)
      · rw [hsum]; exact countSome_lt_iff (ev :: rest)

/-- Witness for C1 at a concrete two-event sequence (one 200, one with null
status), tab 0, capacity 10. -/
theorem upsert_sequence_stats_witness :
    (1 ≤ ({ settingsEx with maxPerTab := 10 } : Settings).maxPerTab ∧ (0 : Int) ≤ 0 ∧
      ([⟨5, some (Status.code 200), none⟩, ⟨7, none, none⟩] : List TerminalEv) ≠ []) ∧
    ∃ rec, objGet
        (getTabData (runUpserts { settingsEx with maxPerTab := 10 } 0 "GET" "a"
          [⟨5, some (Status.code 200), none⟩, ⟨7, none, none⟩] emptyStore) 0).items
        (makeKey "GET" "a") = some rec ∧
      rec.count = ([⟨5, some (Status.code 200), none⟩, ⟨7, none, none⟩] :
        List TerminalEv).length ∧
      rec.lastSeen =
        (([⟨5, some (Status.code 200), none⟩, ⟨7, none, none⟩] :
          List TerminalEv).getLast (by decide)).now ∧
      sumVals rec.statusCounts ≤ ([⟨5, some (Status.code 200), none⟩, ⟨7, none, none⟩] :
        List TerminalEv).length ∧
      (sumVals rec.statusCounts < ([⟨5, some (Status.code 200), none⟩, ⟨7, none, none⟩] :
          List TerminalEv).length ↔
        ∃ ev ∈ ([⟨5, some (Status.code 200), none⟩, ⟨7, none, none⟩] : List TerminalEv),
          ev.status = none) :=
  ⟨⟨by decide, by decide, by decide⟩,
   upsert_sequence_stats { settingsEx with maxPerTab := 10 } 0 "GET" "a"
     [⟨5, some (Status.code 200), none⟩, ⟨7, none, none⟩] (by decide)
     (by decide) (by decide)⟩

/-! ### C2: insertion-order eviction -/

theorem take_append_take {α : Type} (A B : List α) (n : Nat) :
    (A ++ B.take n).take n = (A ++ B).take n := by
  rw [List.take_append_eq_append_take, List.take_append_eq_append_take, List.take_take,
    Nat.min_eq_left (Nat.sub_le n A.length)]

theorem updateRun_singleton (maxPerTab now : Nat) (hmax : 1 ≤ maxPerTab)
    (p : String × String) :
    ∀ (u : Nat) (d : TabData), TabInv d → d.order = [makeKey p.1 p.2] →
      (insertRun maxPerTab now (List.replicate u p) d).order = [makeKey p.1 p.2] ∧
      TabInv (insertRun maxPerTab now (List.replicate u p) d) := by
  intro u
  induction u with
  | zero => intro d hinv hord; exact ⟨hord, hinv⟩
  | succ n ih =>
      intro d hinv hord
      have hstep : insertRun maxPerTab now (List.replicate (n + 1) p) d =
          insertRun maxPerTab now (List.replicate n p)
            (upsertTab maxPerTab now p.1 p.2 none none d) := by
        rw [List.replicate_succ]
        rfl
      have hmem : makeKey p.1 p.2 ∈ d.items.map Prod.fst :=
        (hinv.2.2 _).mpr (by rw [hord]; exact List.mem_cons_self _ _)
      obtain ⟨rec, hrec⟩ : ∃ rec, objGet d.items (makeKey p.1 p.2) = some rec :=
        Option.isSome_iff_exists.mp ((objGet_isSome_iff_mem _ _).mpr hmem)
      have hord' : (upsertTab maxPerTab now p.1 p.2 none none d).order =
          [makeKey p.1 p.2] := by
        rw [upsertTab_order_present maxPerTab now p.1 p.2 none none d rec hrec, hord]
        exact List.take_of_length_le (by simpa using hmax)
      have hinv' : TabInv (upsertTab maxPerTab now p.1 p.2 none none d) :=
        upsertTab_inv maxPerTab now p.1 p.2 none none d hinv
      rw [hstep]
      exact ih _ hinv' hord'

theorem insertRun_fresh (maxPerTab now : Nat) :
    ∀ (ps : List (String × String)) (d : TabData),
      TabInv d →
      (ps.map (fun p => makeKey p.1 p.2)).Nodup →
      (∀ p ∈ ps, makeKey p.1 p.2 ∉ d.order) →
      d.order.length ≤ maxPerTab →
      (insertRun maxPerTab now ps d).order =
        ((ps.map (fun p => makeKey p.1 p.2)).reverse ++ d.order).take maxPerTab ∧
      TabInv (insertRun maxPerTab now ps d) := by
  intro ps
  induction ps with
  | nil =>
      intro d hinv hnd hfresh hlen
      refine ⟨?_, hinv⟩
      simp only [insertRun, List.foldl_nil, List.map_nil, List.reverse_nil,
        List.nil_append]
      exact (List.take_of_length_le hlen).symm
  | cons p ps ih =>
      intro d hinv hnd hfresh hlen
      have hnotord : makeKey p.1 p.2 ∉ d.order := hfresh p (List.mem_cons_self _ _)
      have habs : objGet d.items (makeKey p.1 p.2) = none := by
        rw [objGet_none_iff_not_mem]
        exact fun hm => hnotord ((hinv.2.2 _).mp hm)
      have hord1 : (upsertTab maxPerTab now p.1 p.2 none none d).order =
          (makeKey p.1 p.2 :: d.order).take maxPerTab :=
        upsertTab_order_absent maxPerTab now p.1 p.2 none none d habs
      have hinv1 : TabInv (upsertTab maxPerTab now p.1 p.2 none none d) :=
        upsertTab_inv maxPerTab now p.1 p.2 none none d hinv
      have hlen1 : (upsertTab maxPerTab now p.1 p.2 none none d).order.length ≤
          maxPerTab := by
        rw [hord1, List.length_take]
        exact Nat.min_le_left _ _
      have hndtail : (ps.map (fun p => makeKey p.1 p.2)).Nodup :=
        (List.nodup_cons.mp hnd).2
      have hheadfresh : makeKey p.1 p.2 ∉ ps.map (fun p => makeKey p.1 p.2) :=
        (List.nodup_cons.mp hnd).1
      have hfresh1 : ∀ q ∈ ps,
          makeKey q.1 q.2 ∉ (upsertTab maxPerTab now p.1 p.2 none none d).order := by
        intro q hq hmem
        rw [hord1] at hmem
        have hmem2 : makeKey q.1 q.2 ∈ makeKey p.1 p.2 :: d.order :=
          List.take_subset _ _ hmem
        rcases List.mem_cons.mp hmem2 with he | he
        · exact hheadfresh (he ▸ List.mem_map_of_mem (fun p => makeKey p.1 p.2) hq)
        · exact hfresh q (List.mem_cons_of_mem _ hq) he
      obtain ⟨hordN, hinvN⟩ :=
        ih (upsertTab maxPerTab now p.1 p.2 none none d) hinv1 hndtail hfresh1 hlen1
      have hstep : insertRun maxPerTab now (p :: ps) d =
          insertRun maxPerTab now ps (upsertTab maxPerTab now p.1 p.2 none none d) := rfl
      refine ⟨?_, by rw [hstep]; exact hinvN⟩
      rw [hstep, hordN, hord1, List.map_cons, List.reverse_cons, List.append_assoc,
        List.singleton_append]
      exact take_append_take _ _ _

/-- C2: when an insert pushes `order` past the capacity, exactly the keys
past position `maxPerTab` (the oldest-inserted tail) are removed from
`order` and deleted from `items`; consequently inserting `maxPerTab + 1`
distinct keys into one tab — no matter how often the first key is updated
in between — leaves exactly `maxPerTab` records, and the evicted key is the
earliest-inserted one. -/
theorem upsert_eviction_spec :
    ∀ (maxPerTab : Nat), 1 ≤ maxPerTab →
      (∀ (now : Nat) (method endpoint : String) (statusCode : Option Status)
          (sizeBytes : Option Int) (d : TabData),
        TabInv d → objGet d.items (makeKey method endpoint) = none →
        maxPerTab < (makeKey method endpoint :: d.order).length →
        (upsertTab maxPerTab now method endpoint statusCode sizeBytes d).order =
          (makeKey method endpoint :: d.order).take maxPerTab ∧
        (∀ k ∈ (makeKey method endpoint :: d.order).drop maxPerTab,
          objGet (upsertTab maxPerTab now method endpoint statusCode sizeBytes d).items
            k = none) ∧
        (∀ k ∈ (makeKey method endpoint :: d.order).take maxPerTab,
          (objGet (upsertTab maxPerTab now method endpoint statusCode sizeBytes d).items
            k).isSome)) ∧
      (∀ (now : Nat) (k0 : String × String) (ks : List (String × String)) (u : Nat),
        ks.length = maxPerTab →
        ((k0 :: ks).map (fun p => makeKey p.1 p.2)).Nodup →
        (insertRun maxPerTab now (k0 :: (List.replicate u k0 ++ ks))
            emptyTabData).order.length = maxPerTab ∧
        (insertRun maxPerTab now (k0 :: (List.replicate u k0 ++ ks))
            emptyTabData).items.length = maxPerTab ∧
        makeKey k0.1 k0.2 ∉
          (insertRun maxPerTab now (k0 :: (List.replicate u k0 ++ ks))
            emptyTabData).order ∧
        objGet (insertRun maxPerTab now (k0 :: (List.replicate u k0 ++ ks))
            emptyTabData).items (makeKey k0.1 k0.2) = none ∧
        ∀ p ∈ ks,
          (objGet (insertRun maxPerTab now (k0 :: (List.replicate u k0 ++ ks))
            emptyTabData).items (makeKey p.1 p.2)).isSome) := by
  intro maxPerTab hmax
  constructor
  · intro now method endpoint statusCode sizeBytes d hinv habs _hover
    have hchar := upsertTab_absent maxPerTab now method endpoint statusCode sizeBytes d
      habs
    have hkey_not_ord : makeKey method endpoint ∉ d.order :=
      fun hm => (objGet_none_iff_not_mem d.items _).mp habs ((hinv.2.2 _).mpr hm)
    have hnodup : (makeKey method endpoint :: d.order).Nodup :=
      List.nodup_cons.mpr ⟨hkey_not_ord, hinv.1⟩
    refine ⟨?_, ?_, ?_⟩
    · rw [hchar, enforceLimit_order]
    · intro k hk
      rw [hchar, enforceLimit_objGet]
      exact if_pos hk
    · intro k hk
      rw [hchar, enforceLimit_objGet]
      have hknotdrop : k ∉ (makeKey method endpoint :: d.order).drop maxPerTab :=
        fun hd => take_drop_disjoint _ maxPerTab hnodup hk hd
      rw [if_neg hknotdrop]
      by_cases hke : k = makeKey method endpoint
      · rw [hke, objGet_objSet_self]
        rfl
      · rw [objGet_objSet_ne _ _ _ _ hke]
        rw [objGet_isSome_iff_mem, hinv.2.2 k]
        have hmem2 : k ∈ makeKey method endpoint :: d.order := List.take_subset _ _ hk
        rcases List.mem_cons.mp hmem2 with he | he
        · exact absurd he hke
        · exact he
  · intro now k0 ks u hlen hnd
    have habs0 : objGet emptyTabData.items (makeKey k0.1 k0.2) = none := rfl
    have hord1 : (upsertTab maxPerTab now k0.1 k0.2 none none emptyTabData).order =
        [makeKey k0.1 k0.2] := by
      rw [upsertTab_order_absent maxPerTab now k0.1 k0.2 none none emptyTabData habs0]
      exact List.take_of_length_le (by simpa [emptyTabData] using hmax)
    have hinv1 : TabInv (upsertTab maxPerTab now k0.1 k0.2 none none emptyTabData) :=
      upsertTab_inv maxPerTab now k0.1 k0.2 none none emptyTabData tabInv_empty
    obtain ⟨hord2, hinv2⟩ :=
      updateRun_singleton maxPerTab now hmax k0 u
        (upsertTab maxPerTab now k0.1 k0.2 none none emptyTabData) hinv1 hord1
    have hndtail : (ks.map (fun p => makeKey p.1 p.2)).Nodup :=
      (List.nodup_cons.mp (by simpa using hnd)).2
    have hheadfresh : makeKey k0.1 k0.2 ∉ ks.map (fun p => makeKey p.1 p.2) :=
      (List.nodup_cons.mp (by simpa using hnd)).1
    have hfresh2 : ∀ p ∈ ks, makeKey p.1 p.2 ∉
        (insertRun maxPerTab now (List.replicate u k0)
          (upsertTab maxPerTab now k0.1 k0.2 none none emptyTabData)).order := by
      intro p hp hmem
      rw [hord2, List.mem_singleton] at hmem
      exact hheadfresh (hmem ▸ List.mem_map_of_mem (fun p => makeKey p.1 p.2) hp)
    have hlen2 : (insertRun maxPerTab now (List.replicate u k0)
        (upsertTab maxPerTab now k0.1 k0.2 none none emptyTabData)).order.length ≤
          maxPerTab := by
      rw [hord2]
      simpa using hmax
    obtain ⟨hord3, hinv3⟩ :=
      insertRun_fresh maxPerTab now ks
        (insertRun maxPerTab now (List.replicate u k0)
          (upsertTab maxPerTab now k0.1 k0.2 none none emptyTabData))
        hinv2 hndtail hfresh2 hlen2
    have hsplit : insertRun maxPerTab now (k0 :: (List.replicate u k0 ++ ks))
        emptyTabData =
      insertRun maxPerTab now ks
        (insertRun maxPerTab now (List.replicate u k0)
          (upsertTab maxPerTab now k0.1 k0.2 none none emptyTabData)) := by
      unfold insertRun
      rw [List.foldl_cons, List.foldl_append]
    have hrevlen : ((ks.map (fun p => makeKey p.1 p.2)).reverse).length = maxPerTab := by
      rw [List.length_reverse, List.length_map, hlen]
    have hordF : (insertRun maxPerTab now (k0 :: (List.replicate u k0 ++ ks))
        emptyTabData).order = (ks.map (fun p => makeKey p.1 p.2)).reverse := by
      rw [hsplit, hord3, hord2, List.take_append_eq_append_take, hrevlen,
        Nat.sub_self, List.take_zero, List.append_nil]
      exact List.take_of_length_le (Nat.le_of_eq hrevlen)
    have hinvF : TabInv (insertRun maxPerTab now (k0 :: (List.replicate u k0 ++ ks))
        emptyTabData) := by
      rw [hsplit]; exact hinv3
    have hk0notF : makeKey k0.1 k0.2 ∉
        (insertRun maxPerTab now (k0 :: (List.replicate u k0 ++ ks))
          emptyTabData).order := by
      rw [hordF, List.mem_reverse]
      exact hheadfresh
    refine ⟨?_, ?_, hk0notF, ?_, ?_⟩
    · rw [hordF]
      exact hrevlen
    · rw [tabInv_length _ hinvF, hordF]
      exact hrevlen
    · rw [objGet_none_iff_not_mem]
      exact fun hm => hk0notF ((hinvF.2.2 _).mp hm)
    · intro p hp
      rw [objGet_isSome_iff_mem, hinvF.2.2, hordF, List.mem_reverse]
      exact List.mem_map_of_mem (fun p => makeKey p.1 p.2) hp

/-- A one-record table at capacity 1, used by the C2 witness. -/
def tabA : TabData :=
  { items := [("GET a", freshRecord "GET a" "GET" "a" 0)], order := ["GET a"] }

/-- Witness for C2 with capacity 1: a table holding `"GET a"`, an insert of
`"GET b"` that evicts it, and the insert-update-insert scenario. -/
theorem upsert_eviction_spec_witness :
    (1 ≤ 1 ∧ TabInv tabA ∧
      objGet tabA.items (makeKey "GET" "b") = none ∧
      1 < (makeKey "GET" "b" :: tabA.order).length) ∧
    ((upsertTab 1 9 "GET" "b" none none tabA).order =
        (makeKey "GET" "b" :: tabA.order).take 1 ∧
      (∀ k ∈ (makeKey "GET" "b" :: tabA.order).drop 1,
        objGet (upsertTab 1 9 "GET" "b" none none tabA).items k = none) ∧
      (∀ k ∈ (makeKey "GET" "b" :: tabA.order).take 1,
        (objGet (upsertTab 1 9 "GET" "b" none none tabA).items k).isSome)) ∧
    (([("GET", "b")] : List (String × String)).length = 1 ∧
      ((("GET", "a") :: [("GET", "b")]).map (fun p => makeKey p.1 p.2)).Nodup ∧
      (insertRun 1 9 (("GET", "a") :: (List.replicate 2 ("GET", "a") ++ [("GET", "b")]))
        emptyTabData).order.length = 1 ∧
      (insertRun 1 9 (("GET", "a") :: (List.replicate 2 ("GET", "a") ++ [("GET", "b")]))
        emptyTabData).items.length = 1 ∧
      makeKey "GET" "a" ∉
        (insertRun 1 9 (("GET", "a") :: (List.replicate 2 ("GET", "a") ++ [("GET", "b")]))
          emptyTabData).order ∧
      objGet (insertRun 1 9
          (("GET", "a") :: (List.replicate 2 ("GET", "a") ++ [("GET", "b")]))
          emptyTabData).items (makeKey "GET" "a") = none) := by
  have hinvA : TabInv tabA := by
    refine ⟨by decide, by decide, ?_⟩
    intro k
    simp [tabA]
  have hA := (upsert_eviction_spec 1 (by decide)).1 9 "GET" "b" none none tabA
    hinvA (by decide) (by decide)
  have hB := (upsert_eviction_spec 1 (by decide)).2 9 ("GET", "a") [("GET", "b")] 2
    (by decide) (by decide)
  exact ⟨⟨by decide, hinvA, by decide, by decide⟩,
    hA,
    ⟨by decide, by decide, hB.1, hB.2.1, hB.2.2.1, hB.2.2.2.1⟩⟩

end ApiBrowser
